import Mathlib

set_option linter.unusedSectionVars false

/-!
Verification development for the ChronusQ DIIS extrapolation core
(`include/extrapolate.hpp`) and the SCF option-resolution routine
(`src/cxxapi/input/scfopts.cxx`).

The engine is embedded shallowly: machine floating point is modelled by an
exact field `K` (the claims are stated "under exact arithmetic"), the flat
`std::vector<T> B(N*N)` by a function `Nat → K` updated by the same loops
as the C++ code, and the external LAPACK dense solve by an exact solver
that succeeds precisely on nonsingular systems.
-/

namespace ChronusQ

section InnerProduct

variable {K : Type} [CommRing K] [StarRing K]

/-- Modelled from the spec: the inner-product provider `InnerProd` (its
implementation lives in the linear-algebra utility layer, which is not among
the given sources).  Given two buffers of `n` elements with strides
`incx`, `incy`, it returns the left-to-right accumulated sum of
`conj (x_k) * y_k` (the conjugation is the identity for real scalars). -/
def InnerProd (n : Nat) (x : Nat → K) (incx : Nat) (y : Nat → K) (incy : Nat) : K :=
  List.foldl (fun acc k => acc + star (x (k * incx)) * y (k * incy)) 0 (List.range n)

end InnerProduct

section Determinant

variable {K : Type} [CommRing K]

/-- Executable determinant by Laplace expansion along the first row;
proved equal to `Matrix.det` below.  Used to model the solver. -/
def detR : (n : Nat) → Matrix (Fin n) (Fin n) K → K
  | 0, _ => 1
  | n + 1, A =>
      ∑ j : Fin (n + 1), (-1) ^ (j : Nat) * A 0 j * detR n (A.submatrix Fin.succ j.succAbove)

end Determinant

section Solver

variable {K : Type} [Field K] [DecidableEq K]

/-- Modelled from the spec: the external dense linear-equation solver
dependency (LAPACK `dgesv_` / `zgesv_`).  In exact arithmetic, LU with
partial pivoting reports failure (`INFO != 0`) precisely when the matrix is
singular, and otherwise computes the unique solution of `A x = b`; the model
realizes that contract by Cramer's rule. -/
def LinSolve {n : Nat} (A : Matrix (Fin n) (Fin n) K) (b : Fin n → K) :
    Option (Fin n → K) :=
  if detR n A = 0 then none
  else some fun i => detR n (A.updateColumn i b) / detR n A

end Solver

section Engine

variable {K : Type} [Field K] [StarRing K] [DecidableEq K]

/-- The DIIS class of `extrapolate.hpp`: extrapolation-space size `nExtrap`,
matrices traced per element `nMat`, error-metric length `OSize`, the
coefficient vector, and the history of error metrics.  Buffers (`T*` in the
source) are modelled as functions `Nat → K`. -/
structure DIIS (K : Type) where
  nExtrap : Nat
  nMat : Nat
  OSize : Nat
  coeffs : List K
  errorMetric : List (List (Nat → K))

/-- The DIIS constructor: stores the dimensions and the history and resizes
`coeffs` to `nExtrap + 1` (value-initialized to zero). -/
def DIIS.make (nExtrap nMat OSize : Nat) (errorMetric : List (List (Nat → K))) :
    DIIS K :=
  ⟨nExtrap, nMat, OSize, List.replicate (nExtrap + 1) 0, errorMetric⟩

/-- Access `errorMetric[k][i]` (out-of-range indices, which the C++ never
produces for well-formed calls, default to the empty slot / zero buffer). -/
def DIIS.em (d : DIIS K) (k i : Nat) : Nat → K :=
  (d.errorMetric.getD k []).getD i (fun _ => 0)

/-- The summand `InnerProd<T>(OSize, errorMetric[k][i], 1, errorMetric[j][i], 1)`
accumulated into `B[k + j*N]`. -/
def DIIS.innerTerm (d : DIIS K) (i j k : Nat) : K :=
  InnerProd d.OSize (d.em k i) 1 (d.em j i) 1

/-- First `m` iterations of the innermost accumulation loop
`for(k = 0; k <= j; k++) B[k + j*N] += InnerProd(...)` of `extrapolate`. -/
def DIIS.accumKN (d : DIIS K) (i j m : Nat) (B : Nat → K) : Nat → K :=
  List.foldl
    (fun B k =>
      Function.update B (k + j * (d.nExtrap + 1))
        (B (k + j * (d.nExtrap + 1)) + d.innerTerm i j k))
    B (List.range m)

/-- The full innermost accumulation loop (`k` runs over `0 .. j`). -/
def DIIS.accumK (d : DIIS K) (i j : Nat) (B : Nat → K) : Nat → K :=
  d.accumKN i j (j + 1) B

/-- First `m` iterations of the middle loop `for(j = 0; j < nExtrap; j++)`. -/
def DIIS.accumJN (d : DIIS K) (i m : Nat) (B : Nat → K) : Nat → K :=
  List.foldl (fun B j => d.accumK i j B) B (List.range m)

/-- First `m` iterations of the outer loop `for(i = 0; i < nMat; i++)`. -/
def DIIS.accumIN (d : DIIS K) (m : Nat) (B : Nat → K) : Nat → K :=
  List.foldl (fun B i => d.accumJN i d.nExtrap B) B (List.range m)

/-- The whole "Build the B matrix" accumulation phase, started from the
zero-initialized `std::vector<T> B(N*N, 0)`. -/
def DIIS.accumAll (d : DIIS K) : Nat → K :=
  d.accumIN d.nMat (fun _ => 0)

/-- First `m` iterations of the inner mirror loop
`for(k = 0; k < j; k++) B[j + k*N] = B[k + j*N]`. -/
def DIIS.mirrorKN (d : DIIS K) (j m : Nat) (B : Nat → K) : Nat → K :=
  List.foldl
    (fun B k =>
      Function.update B (j + k * (d.nExtrap + 1)) (B (k + j * (d.nExtrap + 1))))
    B (List.range m)

/-- First `m` iterations of the outer mirror loop over `j`. -/
def DIIS.mirrorAllN (d : DIIS K) (m : Nat) (B : Nat → K) : Nat → K :=
  List.foldl (fun B j => d.mirrorKN j j B) B (List.range m)

/-- The whole mirror phase, copying the upper triangle to the lower one. -/
def DIIS.mirrorAll (d : DIIS K) (B : Nat → K) : Nat → K :=
  d.mirrorAllN d.nExtrap B

/-- First `m` iterations of the border loop
`B[nExtrap + l*N] = -1; B[l + nExtrap*N] = -1`. -/
def DIIS.borderLN (d : DIIS K) (m : Nat) (B : Nat → K) : Nat → K :=
  List.foldl
    (fun B l =>
      Function.update
        (Function.update B (d.nExtrap + l * (d.nExtrap + 1)) (-1))
        (l + d.nExtrap * (d.nExtrap + 1)) (-1))
    B (List.range m)

/-- The whole border phase (`l` runs over `0 .. nExtrap-1`). -/
def DIIS.borderL (d : DIIS K) (B : Nat → K) : Nat → K :=
  d.borderLN d.nExtrap B

/-- The assembled flat `B` array after all four phases of `extrapolate`:
accumulation, mirroring, border, and the corner `B[nExtrap + nExtrap*N] = 0`. -/
def DIIS.buildB (d : DIIS K) : Nat → K :=
  Function.update (d.borderL (d.mirrorAll d.accumAll))
    (d.nExtrap + d.nExtrap * (d.nExtrap + 1)) 0

/-- The Gram sum `Σ_{i < nMat} InnerProd(errorMetric[k][i], errorMetric[j][i])`
that the accumulation phase deposits at `B[k + j*N]` for `k ≤ j`. -/
def DIIS.gram (d : DIIS K) (k j : Nat) : K :=
  ∑ i ∈ Finset.range d.nMat, d.innerTerm i j k

/-- The flat column-major array `B` viewed as an `N × N` matrix,
`N = nExtrap + 1`, entry `(k, j)` sitting at `B[k + j*N]`. -/
def DIIS.Bmat (d : DIIS K) : Matrix (Fin (d.nExtrap + 1)) (Fin (d.nExtrap + 1)) K :=
  Matrix.of fun k j => d.buildB (k.val + j.val * (d.nExtrap + 1))

/-- The right-hand side loaded into `coeffs` before the solve:
all zero except entry `nExtrap`, which is `-1`. -/
def DIIS.rhs (d : DIIS K) : Fin (d.nExtrap + 1) → K :=
  fun l => if l.val = d.nExtrap then -1 else 0

/-- The member function `DIIS<T>::extrapolate()`: build `B`, load the
right-hand side into `coeffs`, solve in place, and return `!InvFail`
together with the updated engine state.  On solver failure the
factorization stops before the back-substitution, so `coeffs` still holds
the right-hand side. -/
def DIIS.extrapolate (d : DIIS K) : Bool × DIIS K :=
  match LinSolve d.Bmat d.rhs with
  | some x => (true, { d with coeffs := List.ofFn x })
  | none => (false, { d with coeffs := List.ofFn d.rhs })

end Engine

section Examples

/-- Error metric `[1, 0]` (and zero beyond the first `OSize` entries). -/
def eUnitX : Nat → ℚ := fun k => if k = 0 then 1 else 0

/-- Error metric `[0, 1]`. -/
def eUnitY : Nat → ℚ := fun k => if k = 1 then 1 else 0

/-- Error metric `[2, 0]`. -/
def eTwoX : Nat → ℚ := fun k => if k = 0 then 2 else 0

/-- Orthonormal two-slot history: `nExtrap = 2`, `nMat = 1`, `OSize = 2`,
`e0 = [1, 0]`, `e1 = [0, 1]`. -/
def dOrtho : DIIS ℚ := DIIS.make 2 1 2 [[eUnitX], [eUnitY]]

/-- Parallel two-slot history: `e0 = [1, 0]`, `e1 = [2, 0]`. -/
def dParallel : DIIS ℚ := DIIS.make 2 1 2 [[eUnitX], [eTwoX]]

/-- Two identical slots (the very same buffer in both): exactly singular. -/
def dSame : DIIS ℚ := DIIS.make 2 1 2 [[eUnitX], [eUnitX]]

/-- Minimal one-slot history: `nExtrap = 1`, `nMat = 1`, `OSize = 1`, `e = [1]`. -/
def dOne : DIIS ℚ := DIIS.make 1 1 1 [[fun _ => (1 : ℚ)]]

/-- Complex error metric `[1]`. -/
def eCOne : Nat → ℂ := fun _ => 1

/-- Complex error metric `[i]`. -/
def eCI : Nat → ℂ := fun _ => Complex.I

end Examples

section SCFOptions

/-- DIIS algorithm selector of the SCF controls.  Only `NONE` is referenced
by the routine under study; the remaining constructors stand for the
available algorithms. -/
inductive DIISAlgorithm where
  | NONE
  | CDIIS
  | EDIIS
  | CEDIIS
  deriving DecidableEq

/-- SCF guess selector. -/
inductive SCFGuessType where
  | CORE
  | SAD
  | RANDOM
  deriving DecidableEq

/-- Electromagnetic field type: magnetic fields are rejected by the parser
(`CErr("Magnetic Fields NYI")`), so only `Electric` can be stored. -/
inductive EMFieldTyp where
  | Electric
  deriving DecidableEq

/-- The perturbation record: the list of fields added so far. -/
structure EMPerturbation where
  fields : List (EMFieldTyp × ℚ × ℚ × ℚ)
  deriving DecidableEq

/-- `EMPerturbation::addField`. -/
def EMPerturbation.addField (p : EMPerturbation) (t : EMFieldTyp) (f : ℚ × ℚ × ℚ) :
    EMPerturbation :=
  ⟨p.fields ++ [(t, f)]⟩

/-- The SCF control block, modelled from its uses in `CQSCFOptions`
(the defining header is not among the given sources); `double` fields are
modelled by `ℚ`. -/
structure SCFControls where
  eneConvTol : ℚ
  denConvTol : ℚ
  maxSCFIter : Nat
  doIncFock : Bool
  nIncFock : Nat
  guess : SCFGuessType
  doExtrap : Bool
  diisAlg : DIISAlgorithm
  nKeep : Nat
  doDamp : Bool
  dampStartParam : ℚ
  dampError : ℚ
  deriving DecidableEq

/-- The SCF section of the input file.  Each `getData` call wrapped in
`OPTOPT` either yields a value or throws (swallowed), modelled by `Option`;
`fieldTokens` is the whitespace-split of the `SCF.FIELD` string (empty list
when the keyword is absent or empty, `split` itself being external). -/
structure CQInputSCF where
  hasSCF : Bool
  enetol : Option ℚ
  dentol : Option ℚ
  maxiter : Option Nat
  incfock : Option Bool
  nincfock : Option Nat
  guessStr : Option String
  extrap : Option Bool
  diis : Option Bool
  nkeep : Option Nat
  damp : Option Bool
  dampparam : Option ℚ
  damperror : Option ℚ
  fieldTokens : List String

/-- The `handleField` lambda of `CQSCFOptions`.  `stod` abstracts
`std::stod` (`none` = the conversion throws, terminating the program, like
`CErr`); `none` overall models abnormal termination through `CErr`. -/
def handleField (stod : String → Option ℚ) (tokens : List String)
    (pert : EMPerturbation) : Option EMPerturbation :=
  match tokens with
  | [] => some pert
  | t0 :: _ =>
    if tokens.length < 4 then none
    else if t0 = "ELECTRIC" then
      if tokens.length = 4 then
        match stod (tokens.getD 1 ""), stod (tokens.getD 2 ""), stod (tokens.getD 3 "") with
        | some a, some b, some c => some (pert.addField .Electric (a, b, c))
        | _, _, _ => none
      else none
    else none

/-- The two trailing "Handling eqivalences in the input options" fixups of
`CQSCFOptions`: a zero damp parameter turns damping off, and damping off
together with `diisAlg == NONE` turns extrapolation off. -/
def applyEquivalences (sc : SCFControls) : SCFControls :=
  let a := if sc.dampStartParam = 0 then { sc with doDamp := false } else sc
  if a.doDamp = false ∧ a.diisAlg = DIISAlgorithm.NONE then
    { a with doExtrap := false }
  else a

/-- The sequence of `OPTOPT`-guarded keyword applications of `CQSCFOptions`,
in source order: each keyword that parsed successfully overwrites its
control, a missing or unparsable keyword leaves the control unchanged. -/
def applyKeywords (input : CQInputSCF) (sc0 : SCFControls) : SCFControls :=
  let sc1 := match input.enetol with
    | some v => { sc0 with eneConvTol := v } | none => sc0
  let sc2 := match input.dentol with
    | some v => { sc1 with denConvTol := v } | none => sc1
  let sc3 := match input.maxiter with
    | some v => { sc2 with maxSCFIter := v } | none => sc2
  let sc4 := match input.incfock with
    | some v => { sc3 with doIncFock := v } | none => sc3
  let sc5 := match input.nincfock with
    | some v => { sc4 with nIncFock := v } | none => sc4
  let sc6 := match input.guessStr with
    | some s =>
        if s = "CORE" then { sc5 with guess := .CORE }
        else if s = "SAD" then { sc5 with guess := .SAD }
        else if s = "RANDOM" then { sc5 with guess := .RANDOM }
        else sc5
    | none => sc5
  let sc7 := match input.extrap with
    | some v => { sc6 with doExtrap := v } | none => sc6
  let sc8 := match input.diis with
    | some b => if b = false then { sc7 with diisAlg := .NONE } else sc7
    | none => sc7
  let sc9 := match input.nkeep with
    | some v => { sc8 with nKeep := v } | none => sc8
  let sc10 := match input.damp with
    | some v => { sc9 with doDamp := v } | none => sc9
  let sc11 := match input.dampparam with
    | some v => { sc10 with dampStartParam := v } | none => sc10
  match input.damperror with
    | some v => { sc11 with dampError := v } | none => sc11

/-- The routine `CQSCFOptions` of `scfopts.cxx`: early return when the input
has no SCF section, otherwise apply each optional keyword to the controls in
source order, process the SCF field (possibly terminating abnormally, the
`none` result), and finally apply the two equivalence fixups. -/
def CQSCFOptions (stod : String → Option ℚ) (input : CQInputSCF)
    (sc0 : SCFControls) (pert0 : EMPerturbation) :
    Option (SCFControls × EMPerturbation) :=
  if input.hasSCF = false then some (sc0, pert0)
  else
    match handleField stod input.fieldTokens pert0 with
    | none => none
    | some pert1 => some (applyEquivalences (applyKeywords input sc0), pert1)

/-- An input file with no SCF section at all. -/
def inputNoSCF : CQInputSCF :=
  ⟨false, none, none, none, none, none, none, none, none, none, none, none, none, []⟩

/-- Incoming SCF controls that violate the damping equivalence:
`dampStartParam = 0` while `doDamp = true`. -/
def scZeroDamp : SCFControls :=
  ⟨0, 0, 0, false, 0, .CORE, true, .CDIIS, 0, true, 0, 0⟩

/-- An empty perturbation. -/
def pertEmpty : EMPerturbation := ⟨[]⟩

/-- An input file whose SCF section is present but empty. -/
def inputSCFOnly : CQInputSCF :=
  ⟨true, none, none, none, none, none, none, none, none, none, none, none, none, []⟩

/-- The controls `scZeroDamp` after the equivalence fixups: damping has been
switched off because its start parameter is zero. -/
def scFixed : SCFControls :=
  ⟨0, 0, 0, false, 0, .CORE, true, .CDIIS, 0, false, 0, 0⟩

end SCFOptions

section FlatIndex

/-- Decoding a flat column-major index: the row. -/
theorem flat_mod {N k j : Nat} (hk : k < N) : (k + j * N) % N = k := by
  rw [Nat.add_mul_mod_self_right, Nat.mod_eq_of_lt hk]

/-- Decoding a flat column-major index: the column. -/
theorem flat_div {N k j : Nat} (hk : k < N) : (k + j * N) / N = j := by
  rw [Nat.add_mul_div_right _ _ (Nat.pos_of_ne_zero (by omega)),
    Nat.div_eq_of_lt hk, Nat.zero_add]

/-- Within one column-major array, in-range (row, column) pairs address
distinct cells. -/
theorem flat_inj {N k j k' j' : Nat} (hk : k < N) (hk' : k' < N)
    (h : k + j * N = k' + j' * N) : k = k' ∧ j = j' := by
  constructor
  · have h1 := congrArg (· % N) h
    simpa [flat_mod hk, flat_mod hk'] using h1
  · have h2 := congrArg (· / N) h
    simpa [flat_div hk, flat_div hk'] using h2

end FlatIndex

section FoldSum

variable {K : Type} [AddCommMonoid K]

/-- A left fold accumulating `f` over `0 .. n-1` is the corresponding
finite sum. -/
theorem foldl_add_range (f : Nat → K) (n : Nat) :
    List.foldl (fun a k => a + f k) 0 (List.range n) = ∑ k ∈ Finset.range n, f k := by
  induction n with
  | zero => rfl
  | succ n ih =>
    rw [List.range_succ, List.foldl_append, List.foldl_cons, List.foldl_nil,
      ih, Finset.sum_range_succ]

/-- The sum of the first element of a list (zero for the empty list). -/
theorem take_one_sum_eq_getD (l : List K) : (l.take 1).sum = l.getD 0 0 := by
  cases l <;> simp

end FoldSum

section InnerProductLemmas

variable {K : Type} [CommRing K] [StarRing K]

/-- The inner product as a finite sum. -/
theorem innerProd_eq_sum (n : Nat) (x : Nat → K) (incx : Nat) (y : Nat → K)
    (incy : Nat) :
    InnerProd n x incx y incy =
      ∑ k ∈ Finset.range n, star (x (k * incx)) * y (k * incy) :=
  foldl_add_range _ n

/-- Conjugate symmetry of the inner product. -/
theorem innerProd_star (n : Nat) (x : Nat → K) (incx : Nat) (y : Nat → K)
    (incy : Nat) :
    InnerProd n x incx y incy = star (InnerProd n y incy x incx) := by
  rw [innerProd_eq_sum, innerProd_eq_sum, star_sum]
  exact Finset.sum_congr rfl fun k _ => by
    rw [star_mul, star_star, mul_comm]

/-- Over scalars with trivial conjugation (the real case) the inner
product is symmetric. -/
theorem innerProd_comm [TrivialStar K] (n : Nat) (x : Nat → K) (incx : Nat)
    (y : Nat → K) (incy : Nat) :
    InnerProd n x incx y incy = InnerProd n y incy x incx := by
  rw [innerProd_star, star_trivial]

end InnerProductLemmas

section DeterminantLemmas

variable {K : Type} [CommRing K]

/-- The executable determinant agrees with Mathlib's determinant. -/
theorem detR_eq_det (n : Nat) (A : Matrix (Fin n) (Fin n) K) :
    detR n A = A.det := by
  induction n with
  | zero => rw [detR, Matrix.det_fin_zero]
  | succ n ih =>
    rw [detR, Matrix.det_succ_row_zero]
    exact Finset.sum_congr rfl fun j _ => by rw [ih]

end DeterminantLemmas

section SolverLemmas

variable {K : Type} [Field K] [DecidableEq K]

/-- The modelled solver fails on singular matrices. -/
theorem LinSolve_eq_none {n : Nat} (A : Matrix (Fin n) (Fin n) K)
    (b : Fin n → K) (h : detR n A = 0) : LinSolve A b = none := by
  simp [LinSolve, h]

/-- The modelled solver succeeds on nonsingular matrices, with the Cramer
solution. -/
theorem LinSolve_eq_some {n : Nat} (A : Matrix (Fin n) (Fin n) K)
    (b : Fin n → K) (h : detR n A ≠ 0) :
    LinSolve A b = some fun i => detR n (A.updateColumn i b) / detR n A := by
  simp [LinSolve, h]

/-- Whatever the modelled solver returns solves the linear system. -/
theorem LinSolve_mulVec {n : Nat} (A : Matrix (Fin n) (Fin n) K)
    (b x : Fin n → K) (h : LinSolve A b = some x) : A.mulVec x = b := by
  rw [LinSolve] at h
  split_ifs at h with hd
  have hd' : A.det ≠ 0 := by rwa [detR_eq_det] at hd
  obtain rfl := Option.some.inj h
  have hx : (fun i => detR n (A.updateColumn i b) / detR n A) =
      A.det⁻¹ • Matrix.cramer A b := by
    funext i
    simp [Pi.smul_apply, smul_eq_mul, Matrix.cramer_apply, detR_eq_det,
      div_eq_mul_inv, mul_comm]
  rw [hx, Matrix.mulVec_smul, Matrix.mulVec_cramer, smul_smul,
    inv_mul_cancel₀ hd', one_smul]

end SolverLemmas

section EngineLemmas

variable {K : Type} [Field K] [StarRing K] [DecidableEq K]

theorem DIIS.accumKN_succ (d : DIIS K) (i j m : Nat) (B : Nat → K) :
    d.accumKN i j (m + 1) B =
      Function.update (d.accumKN i j m B) (m + j * (d.nExtrap + 1))
        ((d.accumKN i j m B) (m + j * (d.nExtrap + 1)) + d.innerTerm i j m) := by
  rw [DIIS.accumKN, DIIS.accumKN, List.range_succ, List.foldl_append,
    List.foldl_cons, List.foldl_nil]

theorem DIIS.accumKN_ne (d : DIIS K) (i j m : Nat) (B : Nat → K) (p : Nat)
    (h : ∀ k, k < m → p ≠ k + j * (d.nExtrap + 1)) :
    d.accumKN i j m B p = B p := by
  induction m with
  | zero => rfl
  | succ m ih =>
    rw [DIIS.accumKN_succ, Function.update_noteq (h m (by omega))]
    exact ih fun k hk => h k (by omega)

theorem DIIS.accumKN_eq (d : DIIS K) (i j m k : Nat) (B : Nat → K)
    (hk : k < m) :
    d.accumKN i j m B (k + j * (d.nExtrap + 1)) =
      B (k + j * (d.nExtrap + 1)) + d.innerTerm i j k := by
  induction m with
  | zero => omega
  | succ m ih =>
    rw [DIIS.accumKN_succ]
    rcases Nat.lt_succ_iff_lt_or_eq.mp hk with h | rfl
    · rw [Function.update_noteq fun hh => absurd (Nat.add_right_cancel hh) (by omega)]
      exact ih h
    · rw [Function.update_same,
        d.accumKN_ne i j k B _ fun k' hk' hh => by
          exact absurd (Nat.add_right_cancel hh.symm) (by omega)]

theorem DIIS.accumJN_succ (d : DIIS K) (i m : Nat) (B : Nat → K) :
    d.accumJN i (m + 1) B = d.accumK i m (d.accumJN i m B) := by
  rw [DIIS.accumJN, DIIS.accumJN, List.range_succ, List.foldl_append,
    List.foldl_cons, List.foldl_nil]

theorem DIIS.accumJN_ne (d : DIIS K) (i m : Nat) (B : Nat → K) (p : Nat)
    (h : ∀ k j, k ≤ j → j < m → p ≠ k + j * (d.nExtrap + 1)) :
    d.accumJN i m B p = B p := by
  induction m with
  | zero => rfl
  | succ m ih =>
    rw [DIIS.accumJN_succ, DIIS.accumK,
      d.accumKN_ne i m (m + 1) _ p fun k hk => h k m (by omega) (by omega)]
    exact ih fun k j hk hj => h k j hk (by omega)

theorem DIIS.accumJN_eq (d : DIIS K) (i m k j : Nat) (B : Nat → K)
    (hm : m ≤ d.nExtrap + 1) (hk : k ≤ j) (hj : j < m) :
    d.accumJN i m B (k + j * (d.nExtrap + 1)) =
      B (k + j * (d.nExtrap + 1)) + d.innerTerm i j k := by
  induction m with
  | zero => omega
  | succ m ih =>
    rw [DIIS.accumJN_succ, DIIS.accumK]
    rcases Nat.lt_succ_iff_lt_or_eq.mp hj with h | rfl
    · rw [d.accumKN_ne i m (m + 1) _ _ fun k' hk' hh => by
        exact absurd (flat_inj (by omega) (by omega) hh).2 (by omega)]
      exact ih (by omega) h
    · rw [d.accumKN_eq i j (j + 1) k _ (by omega),
        d.accumJN_ne i j B _ fun k' j' hk' hj' hh => by
          exact absurd (flat_inj (by omega) (by omega) hh).2 (by omega)]

theorem DIIS.accumIN_succ (d : DIIS K) (m : Nat) (B : Nat → K) :
    d.accumIN (m + 1) B = d.accumJN m d.nExtrap (d.accumIN m B) := by
  rw [DIIS.accumIN, DIIS.accumIN, List.range_succ, List.foldl_append,
    List.foldl_cons, List.foldl_nil]

theorem DIIS.accumIN_ne (d : DIIS K) (m : Nat) (B : Nat → K) (p : Nat)
    (h : ∀ k j, k ≤ j → j < d.nExtrap → p ≠ k + j * (d.nExtrap + 1)) :
    d.accumIN m B p = B p := by
  induction m with
  | zero => rfl
  | succ m ih => rw [DIIS.accumIN_succ, d.accumJN_ne m d.nExtrap _ p h, ih]

theorem DIIS.accumIN_eq (d : DIIS K) (m k j : Nat) (B : Nat → K)
    (hk : k ≤ j) (hj : j < d.nExtrap) :
    d.accumIN m B (k + j * (d.nExtrap + 1)) =
      B (k + j * (d.nExtrap + 1)) + ∑ i ∈ Finset.range m, d.innerTerm i j k := by
  induction m with
  | zero => simp [DIIS.accumIN]
  | succ m ih =>
    rw [DIIS.accumIN_succ,
      d.accumJN_eq m d.nExtrap k j _ (by omega) hk hj, ih,
      Finset.sum_range_succ, add_assoc]

theorem DIIS.accumAll_eq (d : DIIS K) (k j : Nat) (hk : k ≤ j)
    (hj : j < d.nExtrap) :
    d.accumAll (k + j * (d.nExtrap + 1)) = d.gram k j := by
  rw [DIIS.accumAll, d.accumIN_eq d.nMat k j _ hk hj, zero_add, DIIS.gram]

theorem DIIS.accumAll_ne (d : DIIS K) (p : Nat)
    (h : ∀ k j, k ≤ j → j < d.nExtrap → p ≠ k + j * (d.nExtrap + 1)) :
    d.accumAll p = 0 := by
  rw [DIIS.accumAll, d.accumIN_ne d.nMat _ p h]

theorem DIIS.mirrorKN_succ (d : DIIS K) (j m : Nat) (B : Nat → K) :
    d.mirrorKN j (m + 1) B =
      Function.update (d.mirrorKN j m B) (j + m * (d.nExtrap + 1))
        ((d.mirrorKN j m B) (m + j * (d.nExtrap + 1))) := by
  rw [DIIS.mirrorKN, DIIS.mirrorKN, List.range_succ, List.foldl_append,
    List.foldl_cons, List.foldl_nil]

theorem DIIS.mirrorKN_ne (d : DIIS K) (j m : Nat) (B : Nat → K) (p : Nat)
    (h : ∀ k, k < m → p ≠ j + k * (d.nExtrap + 1)) :
    d.mirrorKN j m B p = B p := by
  induction m with
  | zero => rfl
  | succ m ih =>
    rw [DIIS.mirrorKN_succ, Function.update_noteq (h m (by omega))]
    exact ih fun k hk => h k (by omega)

theorem DIIS.mirrorKN_eq (d : DIIS K) (j m k : Nat) (B : Nat → K)
    (hk : k < m) (hm : m ≤ j) (hj : j < d.nExtrap + 1) :
    d.mirrorKN j m B (j + k * (d.nExtrap + 1)) = B (k + j * (d.nExtrap + 1)) := by
  induction m with
  | zero => omega
  | succ m ih =>
    rw [DIIS.mirrorKN_succ]
    rcases Nat.lt_succ_iff_lt_or_eq.mp hk with h | rfl
    · rw [Function.update_noteq fun hh => by
        exact absurd (flat_inj (by omega) (by omega) hh).2 (by omega)]
      exact ih h (by omega)
    · rw [Function.update_same,
        d.mirrorKN_ne j k B _ fun k' hk' hh => by
          exact absurd (flat_inj (by omega) (by omega) hh).1 (by omega)]

theorem DIIS.mirrorAllN_succ (d : DIIS K) (m : Nat) (B : Nat → K) :
    d.mirrorAllN (m + 1) B = d.mirrorKN m m (d.mirrorAllN m B) := by
  rw [DIIS.mirrorAllN, DIIS.mirrorAllN, List.range_succ, List.foldl_append,
    List.foldl_cons, List.foldl_nil]

theorem DIIS.mirrorAllN_ne (d : DIIS K) (m : Nat) (B : Nat → K) (p : Nat)
    (h : ∀ k j, k < j → j < m → p ≠ j + k * (d.nExtrap + 1)) :
    d.mirrorAllN m B p = B p := by
  induction m with
  | zero => rfl
  | succ m ih =>
    rw [DIIS.mirrorAllN_succ,
      d.mirrorKN_ne m m _ p fun k hk => h k m hk (by omega)]
    exact ih fun k j hk hj => h k j hk (by omega)

theorem DIIS.mirrorAllN_eq (d : DIIS K) (m k j : Nat) (B : Nat → K)
    (hk : k < j) (hj : j < m) (hm : m ≤ d.nExtrap) :
    d.mirrorAllN m B (j + k * (d.nExtrap + 1)) = B (k + j * (d.nExtrap + 1)) := by
  induction m with
  | zero => omega
  | succ m ih =>
    rw [DIIS.mirrorAllN_succ]
    rcases Nat.lt_succ_iff_lt_or_eq.mp hj with h | rfl
    · rw [d.mirrorKN_ne m m _ _ fun k' hk' hh => by
        exact absurd (flat_inj (by omega) (by omega) hh).1 (by omega)]
      exact ih h (by omega)
    · rw [d.mirrorKN_eq j j k _ hk (by omega) (by omega),
        d.mirrorAllN_ne j B _ fun k' j' hk' hj' hh => by
          have h2 := flat_inj (show k < d.nExtrap + 1 by omega)
            (show j' < d.nExtrap + 1 by omega) hh
          omega]

theorem DIIS.borderLN_succ (d : DIIS K) (m : Nat) (B : Nat → K) :
    d.borderLN (m + 1) B =
      Function.update
        (Function.update (d.borderLN m B)
          (d.nExtrap + m * (d.nExtrap + 1)) (-1))
        (m + d.nExtrap * (d.nExtrap + 1)) (-1) := by
  rw [DIIS.borderLN, DIIS.borderLN, List.range_succ, List.foldl_append,
    List.foldl_cons, List.foldl_nil]

theorem DIIS.borderLN_ne (d : DIIS K) (m : Nat) (B : Nat → K) (p : Nat)
    (h : ∀ l, l < m → p ≠ d.nExtrap + l * (d.nExtrap + 1) ∧
      p ≠ l + d.nExtrap * (d.nExtrap + 1)) :
    d.borderLN m B p = B p := by
  induction m with
  | zero => rfl
  | succ m ih =>
    rw [DIIS.borderLN_succ, Function.update_noteq (h m (by omega)).2,
      Function.update_noteq (h m (by omega)).1]
    exact ih fun l hl => h l (by omega)

theorem DIIS.borderLN_row (d : DIIS K) (m l : Nat) (B : Nat → K)
    (hl : l < m) (hm : m ≤ d.nExtrap) :
    d.borderLN m B (d.nExtrap + l * (d.nExtrap + 1)) = -1 := by
  induction m with
  | zero => omega
  | succ m ih =>
    rw [DIIS.borderLN_succ]
    rcases Nat.lt_succ_iff_lt_or_eq.mp hl with h | rfl
    · rw [Function.update_noteq fun hh => by
        have h2 := flat_inj (show d.nExtrap < d.nExtrap + 1 by omega)
          (show m < d.nExtrap + 1 by omega) hh
        omega]
      rw [Function.update_noteq fun hh => by
        exact absurd (flat_inj (by omega) (by omega) hh).2 (by omega)]
      exact ih h (by omega)
    · rw [Function.update_noteq fun hh => by
        have h2 := flat_inj (show d.nExtrap < d.nExtrap + 1 by omega)
          (show l < d.nExtrap + 1 by omega) hh
        omega]
      rw [Function.update_same]

theorem DIIS.borderLN_col (d : DIIS K) (m l : Nat) (B : Nat → K)
    (hl : l < m) (hm : m ≤ d.nExtrap) :
    d.borderLN m B (l + d.nExtrap * (d.nExtrap + 1)) = -1 := by
  induction m with
  | zero => omega
  | succ m ih =>
    rw [DIIS.borderLN_succ]
    rcases Nat.lt_succ_iff_lt_or_eq.mp hl with h | rfl
    · rw [Function.update_noteq fun hh =>
        absurd (Nat.add_right_cancel hh) (by omega)]
      rw [Function.update_noteq fun hh => by
        have h2 := flat_inj (show l < d.nExtrap + 1 by omega)
          (show d.nExtrap < d.nExtrap + 1 by omega) hh
        omega]
      exact ih h (by omega)
    · rw [Function.update_same]

/-- Closed form of the assembled bordered matrix: Gram sums in the
`nExtrap × nExtrap` leading block (the lower triangle mirroring the upper
one without conjugation), `-1` on the border, `0` in the corner. -/
theorem DIIS.Bmat_apply (d : DIIS K) (k j : Fin (d.nExtrap + 1)) :
    d.Bmat k j =
      if k.val = d.nExtrap then (if j.val = d.nExtrap then 0 else -1)
      else if j.val = d.nExtrap then -1
      else if k.val ≤ j.val then d.gram k.val j.val else d.gram j.val k.val := by
  have hkN := k.isLt
  have hjN := j.isLt
  show d.buildB (k.val + j.val * (d.nExtrap + 1)) = _
  rw [DIIS.buildB]
  by_cases hk : k.val = d.nExtrap <;> by_cases hj : j.val = d.nExtrap
  · rw [hk, hj, Function.update_same]
    simp
  · rw [Function.update_noteq fun hh => by
      exact absurd (flat_inj (by omega) (by omega) hh).2 (by omega)]
    rw [DIIS.borderL, hk, d.borderLN_row d.nExtrap j.val _ (by omega) le_rfl]
    simp [hj]
  · rw [Function.update_noteq fun hh => by
      exact absurd (flat_inj (by omega) (by omega) hh).1 (by omega)]
    rw [DIIS.borderL, hj, d.borderLN_col d.nExtrap k.val _ (by omega) le_rfl]
    simp [hk]
  · rw [Function.update_noteq fun hh => by
      exact absurd (flat_inj (by omega) (by omega) hh).1 (by omega)]
    rw [DIIS.borderL, d.borderLN_ne d.nExtrap _ _ fun l hl => by
      constructor
      · intro hh
        exact absurd (flat_inj (by omega) (by omega) hh).1 (by omega)
      · intro hh
        exact absurd (flat_inj (by omega) (by omega) hh).2 (by omega)]
    rw [DIIS.mirrorAll]
    rcases le_or_lt k.val j.val with hle | hlt
    · rw [d.mirrorAllN_ne d.nExtrap _ _ fun k' j' hk' hj' hh => by
        have h2 := flat_inj (show k.val < d.nExtrap + 1 by omega)
          (show j' < d.nExtrap + 1 by omega) hh
        omega]
      rw [d.accumAll_eq k.val j.val hle (by omega)]
      simp [hk, hj, hle]
    · rw [d.mirrorAllN_eq d.nExtrap j.val k.val _ hlt (by omega) le_rfl,
        d.accumAll_eq j.val k.val (by omega) (by omega)]
      simp [hk, hj, Nat.not_le.mpr hlt]

/-- A successful `extrapolate` call comes from a successful solve, whose
solution is written into `coeffs`. -/
theorem DIIS.extrapolate_true_elim {d : DIIS K} (h : (d.extrapolate).1 = true) :
    ∃ x, LinSolve d.Bmat d.rhs = some x ∧
      (d.extrapolate).2.coeffs = List.ofFn x := by
  cases hc : LinSolve d.Bmat d.rhs with
  | none => rw [DIIS.extrapolate, hc] at h; simp at h
  | some x => exact ⟨x, rfl, by rw [DIIS.extrapolate, hc]⟩

/-- A singular bordered matrix makes `extrapolate` report failure. -/
theorem DIIS.extrapolate_false_of_det {d : DIIS K}
    (h : detR (d.nExtrap + 1) d.Bmat = 0) : (d.extrapolate).1 = false := by
  rw [DIIS.extrapolate, LinSolve_eq_none _ _ h]

/-- A nonsingular bordered matrix makes `extrapolate` report success. -/
theorem DIIS.extrapolate_true_of_det {d : DIIS K}
    (h : detR (d.nExtrap + 1) d.Bmat ≠ 0) : (d.extrapolate).1 = true := by
  rw [DIIS.extrapolate, LinSolve_eq_some _ _ h]

/-- Over scalars with trivial conjugation the Gram sum is symmetric. -/
theorem DIIS.gram_comm [TrivialStar K] (d : DIIS K) (k j : Nat) :
    d.gram k j = d.gram j k := by
  unfold DIIS.gram DIIS.innerTerm
  exact Finset.sum_congr rfl fun i _ => innerProd_comm _ _ _ _ _

/-- Replacing the left slot of a Gram sum by an identical slot. -/
theorem DIIS.gram_congr_left (d : DIIS K) {a b : Nat}
    (h : d.errorMetric.getD a [] = d.errorMetric.getD b []) (c : Nat) :
    d.gram a c = d.gram b c := by
  unfold DIIS.gram DIIS.innerTerm DIIS.em
  rw [h]

/-- Replacing the right slot of a Gram sum by an identical slot. -/
theorem DIIS.gram_congr_right (d : DIIS K) {a b : Nat}
    (h : d.errorMetric.getD a [] = d.errorMetric.getD b []) (c : Nat) :
    d.gram c a = d.gram c b := by
  unfold DIIS.gram DIIS.innerTerm DIIS.em
  rw [h]

/-- On success, the leading `nExtrap` entries of `coeffs` sum to `1`:
the constraint row of the bordered system forces it. -/
theorem DIIS.sum_take_eq_one (d : DIIS K) (h : (d.extrapolate).1 = true) :
    ((d.extrapolate).2.coeffs.take d.nExtrap).sum = 1 := by
  obtain ⟨x, hLS, hc⟩ := d.extrapolate_true_elim h
  have hsolve := LinSolve_mulVec _ _ _ hLS
  have hrow : ∑ j, d.Bmat (Fin.last d.nExtrap) j * x j =
      d.rhs (Fin.last d.nExtrap) := by
    have h2 := congrFun hsolve (Fin.last d.nExtrap)
    simpa [Matrix.mulVec, Matrix.dotProduct] using h2
  have hrhs : d.rhs (Fin.last d.nExtrap) = -1 := by simp [DIIS.rhs]
  have hsum : ∑ j : Fin (d.nExtrap + 1),
      -(if j.val < d.nExtrap then x j else 0) = -1 := by
    rw [← hrhs, ← hrow]
    refine Finset.sum_congr rfl fun j _ => ?_
    rw [d.Bmat_apply]
    rcases Nat.lt_or_ge j.val d.nExtrap with hj | hj
    · have hne : ¬ j.val = d.nExtrap := by omega
      simp [Fin.val_last, hne, hj, neg_one_mul]
    · have heq : j.val = d.nExtrap := by omega
      simp [Fin.val_last, heq]
  rw [Finset.sum_neg_distrib] at hsum
  have hone : ∑ j : Fin (d.nExtrap + 1),
      (if j.val < d.nExtrap then x j else 0) = 1 := neg_inj.mp hsum
  rw [hc, List.sum_take_ofFn, Finset.sum_filter, hone]

end EngineLemmas

section ConcreteEvaluations

theorem ipXX : InnerProd 2 eUnitX 1 eUnitX 1 = 1 := by
  rw [innerProd_eq_sum]
  simp [eUnitX, Finset.sum_range_succ]

theorem ipXY : InnerProd 2 eUnitX 1 eUnitY 1 = 0 := by
  rw [innerProd_eq_sum]
  simp [eUnitX, eUnitY, Finset.sum_range_succ]

theorem ipYY : InnerProd 2 eUnitY 1 eUnitY 1 = 1 := by
  rw [innerProd_eq_sum]
  simp [eUnitY, Finset.sum_range_succ]

theorem ipXT : InnerProd 2 eUnitX 1 eTwoX 1 = 2 := by
  rw [innerProd_eq_sum]
  simp [eUnitX, eTwoX, Finset.sum_range_succ]

theorem ipTT : InnerProd 2 eTwoX 1 eTwoX 1 = 4 := by
  rw [innerProd_eq_sum]
  simp [eTwoX, Finset.sum_range_succ]
  norm_num

/-- Entrywise closed form of the bordered matrix of a two-slot,
one-tracked-matrix history over `ℚ`. -/
theorem twoSlot_Bmat (e0 e1 : Nat → ℚ) (k j : Fin 3) :
    (DIIS.make 2 1 2 [[e0], [e1]] : DIIS ℚ).Bmat k j =
      !![InnerProd 2 e0 1 e0 1, InnerProd 2 e0 1 e1 1, -1;
         InnerProd 2 e0 1 e1 1, InnerProd 2 e1 1 e1 1, -1;
         -1, -1, 0] k j := by
  rw [DIIS.Bmat_apply]
  fin_cases k <;> fin_cases j <;>
    simp [DIIS.make, DIIS.gram, DIIS.innerTerm, DIIS.em,
      Finset.sum_range_one]

/-- Determinant of the two-slot bordered matrix: `2 b - a - c` for Gram
entries `a, b, c`. -/
theorem twoSlot_detR3 (e0 e1 : Nat → ℚ) :
    detR 3 (DIIS.make 2 1 2 [[e0], [e1]] : DIIS ℚ).Bmat =
      2 * InnerProd 2 e0 1 e1 1 - InnerProd 2 e0 1 e0 1 -
        InnerProd 2 e1 1 e1 1 := by
  rw [detR_eq_det, Matrix.det_fin_three]
  simp only [twoSlot_Bmat e0 e1]
  simp [Matrix.cons_val_zero, Matrix.cons_val_one, Matrix.cons_val_two,
    Matrix.head_cons, Matrix.tail_cons]
  ring

/-- The same determinant, stated at the dimension the engine uses. -/
theorem twoSlot_detR (e0 e1 : Nat → ℚ) :
    detR ((DIIS.make 2 1 2 [[e0], [e1]] : DIIS ℚ).nExtrap + 1)
        (DIIS.make 2 1 2 [[e0], [e1]] : DIIS ℚ).Bmat =
      2 * InnerProd 2 e0 1 e1 1 - InnerProd 2 e0 1 e0 1 -
        InnerProd 2 e1 1 e1 1 :=
  twoSlot_detR3 e0 e1

theorem dOrtho_detR : detR (dOrtho.nExtrap + 1) dOrtho.Bmat = -2 := by
  have h : detR ((DIIS.make 2 1 2 [[eUnitX], [eUnitY]] : DIIS ℚ).nExtrap + 1)
      (DIIS.make 2 1 2 [[eUnitX], [eUnitY]] : DIIS ℚ).Bmat = -2 := by
    rw [twoSlot_detR, ipXX, ipXY, ipYY]
    norm_num
  exact h

theorem dParallel_detR : detR (dParallel.nExtrap + 1) dParallel.Bmat = -1 := by
  have h : detR ((DIIS.make 2 1 2 [[eUnitX], [eTwoX]] : DIIS ℚ).nExtrap + 1)
      (DIIS.make 2 1 2 [[eUnitX], [eTwoX]] : DIIS ℚ).Bmat = -1 := by
    rw [twoSlot_detR, ipXX, ipXT, ipTT]
    norm_num
  exact h

theorem dSame_detR : detR (dSame.nExtrap + 1) dSame.Bmat = 0 := by
  have h : detR ((DIIS.make 2 1 2 [[eUnitX], [eUnitX]] : DIIS ℚ).nExtrap + 1)
      (DIIS.make 2 1 2 [[eUnitX], [eUnitX]] : DIIS ℚ).Bmat = 0 := by
    rw [twoSlot_detR, ipXX]
    norm_num
  exact h

theorem dOrtho_true : (dOrtho.extrapolate).1 = true :=
  DIIS.extrapolate_true_of_det (by rw [dOrtho_detR]; norm_num)

theorem dParallel_true : (dParallel.extrapolate).1 = true :=
  DIIS.extrapolate_true_of_det (by rw [dParallel_detR]; norm_num)

/-- Determinant of the one-slot bordered matrix is `-1` for every metric
(the bordered system with a single slot is never singular). -/
theorem oneSlot_detR {K : Type} [Field K] [StarRing K] [DecidableEq K]
    (OS : Nat) (e : Nat → K) :
    detR ((DIIS.make 1 1 OS [[e]] : DIIS K).nExtrap + 1)
      (DIIS.make 1 1 OS [[e]] : DIIS K).Bmat = -1 := by
  have h : detR 2 (DIIS.make 1 1 OS [[e]] : DIIS K).Bmat = -1 := by
    rw [detR_eq_det, Matrix.det_fin_two]
    simp only [DIIS.Bmat_apply]
    simp [DIIS.make]
  exact h

theorem dOne_detR : detR (dOne.nExtrap + 1) dOne.Bmat = -1 :=
  oneSlot_detR 1 (fun _ => (1 : ℚ))

theorem dOne_true : (dOne.extrapolate).1 = true :=
  DIIS.extrapolate_true_of_det (by rw [dOne_detR]; norm_num)

theorem ofFnThree {α : Type} (y : Fin 3 → α) : List.ofFn y = [y 0, y 1, y 2] := by
  simp [List.ofFn_succ]

theorem dOrthoM_det3 :
    detR 3 (DIIS.make 2 1 2 [[eUnitX], [eUnitY]] : DIIS ℚ).Bmat = -2 := by
  rw [twoSlot_detR3, ipXX, ipXY, ipYY]
  norm_num

theorem dOrthoM_upd0_det3 :
    detR 3 ((DIIS.make 2 1 2 [[eUnitX], [eUnitY]] : DIIS ℚ).Bmat.updateColumn 0
      (DIIS.make 2 1 2 [[eUnitX], [eUnitY]] : DIIS ℚ).rhs) = -1 := by
  rw [detR_eq_det, Matrix.det_fin_three]
  simp only [Matrix.updateColumn_apply, twoSlot_Bmat]
  simp [DIIS.rhs, DIIS.make, ipXX, ipXY, ipYY, Matrix.cons_val_zero,
    Matrix.cons_val_one, Matrix.cons_val_two, Matrix.head_cons,
    Matrix.tail_cons]

theorem dOrthoM_upd1_det3 :
    detR 3 ((DIIS.make 2 1 2 [[eUnitX], [eUnitY]] : DIIS ℚ).Bmat.updateColumn 1
      (DIIS.make 2 1 2 [[eUnitX], [eUnitY]] : DIIS ℚ).rhs) = -1 := by
  rw [detR_eq_det, Matrix.det_fin_three]
  simp only [Matrix.updateColumn_apply, twoSlot_Bmat]
  simp [DIIS.rhs, DIIS.make, ipXX, ipXY, ipYY, Matrix.cons_val_zero,
    Matrix.cons_val_one, Matrix.cons_val_two, Matrix.head_cons,
    Matrix.tail_cons]

theorem ipCOO : InnerProd 1 eCOne 1 eCOne 1 = 1 := by
  rw [innerProd_eq_sum]
  simp [eCOne]

theorem ipCOI : InnerProd 1 eCOne 1 eCI 1 = Complex.I := by
  rw [innerProd_eq_sum]
  simp [eCOne, eCI]

theorem ipCIO : InnerProd 1 eCI 1 eCOne 1 = -Complex.I := by
  rw [innerProd_eq_sum]
  simp [eCOne, eCI, Complex.star_def, Complex.conj_I]

theorem ipCII : InnerProd 1 eCI 1 eCI 1 = 1 := by
  rw [innerProd_eq_sum]
  simp [eCI, Complex.star_def, Complex.conj_I, Complex.I_mul_I]

/-- Entrywise closed form of the bordered matrix of the complex three-slot
history with identical first and third slots: the mirror copies the upper
triangle without conjugation, so the first and third rows differ in their
middle entries (`i` against `-i`). -/
theorem dCSame_Bmat (k j : Fin 4) :
    (DIIS.make 3 1 1 [[eCOne], [eCI], [eCOne]] : DIIS ℂ).Bmat k j =
      !![1, Complex.I, 1, -1;
         Complex.I, 1, -Complex.I, -1;
         1, -Complex.I, 1, -1;
         -1, -1, -1, 0] k j := by
  rw [DIIS.Bmat_apply]
  fin_cases k <;> fin_cases j <;>
    simp [DIIS.make, DIIS.gram, DIIS.innerTerm, DIIS.em,
      Finset.sum_range_one, ipCOO, ipCOI, ipCIO, ipCII]

theorem dCSame_BmatEq :
    (DIIS.make 3 1 1 [[eCOne], [eCI], [eCOne]] : DIIS ℂ).Bmat =
      !![1, Complex.I, 1, -1;
         Complex.I, 1, -Complex.I, -1;
         1, -Complex.I, 1, -1;
         -1, -1, -1, 0] := by
  ext k j
  exact dCSame_Bmat k j

/-- The bordered matrix of the complex identical-slots history is
nonsingular: its determinant is `-4`. -/
theorem dCSame_detR :
    detR ((DIIS.make 3 1 1 [[eCOne], [eCI], [eCOne]] : DIIS ℂ).nExtrap + 1)
      (DIIS.make 3 1 1 [[eCOne], [eCI], [eCOne]] : DIIS ℂ).Bmat = -4 := by
  have h : detR 4 (DIIS.make 3 1 1 [[eCOne], [eCI], [eCOne]] : DIIS ℂ).Bmat
      = -4 := by
    rw [detR_eq_det, dCSame_BmatEq]
    norm_num [Matrix.det_succ_row_zero, Fin.sum_univ_succ, Complex.I_mul_I]
    norm_num [show (Fin.succAbove 2 2 : Fin 4) = (2 : Fin 3).succ from by decide,
      show (Fin.castSucc 2 : Fin 4) = (1 : Fin 3).succ from by decide,
      show (Fin.succAbove 1 2 : Fin 4) = (2 : Fin 3).succ from by decide,
      Matrix.cons_val_succ]
    ring_nf
    simp [Complex.I_sq]
  exact h

theorem dCSame_true :
    ((DIIS.make 3 1 1 [[eCOne], [eCI], [eCOne]] : DIIS ℂ).extrapolate).1 = true :=
  DIIS.extrapolate_true_of_det (by rw [dCSame_detR]; norm_num)

end ConcreteEvaluations

section Claims

variable {K : Type} [Field K] [StarRing K] [DecidableEq K]

/-- C1: for every valid history (`nExtrap ≥ 1`), if `extrapolate()` returns
`true` then the returned coefficient vector `coeffs[0..nExtrap)` has length
`nExtrap` and its entries sum to `1` exactly (exact-arithmetic model of the
floating-point computation). -/
theorem claimC1 (d : DIIS K) (hn : 1 ≤ d.nExtrap)
    (h : (d.extrapolate).1 = true) :
    ((d.extrapolate).2.coeffs.take d.nExtrap).length = d.nExtrap ∧
      ((d.extrapolate).2.coeffs.take d.nExtrap).sum = 1 := by
  refine ⟨?_, d.sum_take_eq_one h⟩
  obtain ⟨x, hLS, hc⟩ := d.extrapolate_true_elim h
  rw [hc, List.length_take, List.length_ofFn]
  omega

theorem claimC1_witness :
    ((dOne.extrapolate).2.coeffs.take dOne.nExtrap).length = dOne.nExtrap ∧
      ((dOne.extrapolate).2.coeffs.take dOne.nExtrap).sum = 1 :=
  claimC1 dOne (by decide) dOne_true

/-- C2: the assembled bordered matrix has, for every `k ≤ j < nExtrap`, the
accumulated inner-product sum over the `nMat` tracked matrices at `B[k][j]`;
`-1` on the border row and column; `0` in the corner; and the right-hand
side is zero except for its last entry `-1`. -/
theorem claimC2 (d : DIIS K) :
    (∀ k j : Fin (d.nExtrap + 1), k.val ≤ j.val → j.val < d.nExtrap →
        d.Bmat k j = ∑ i ∈ Finset.range d.nMat,
          InnerProd d.OSize (d.em k.val i) 1 (d.em j.val i) 1) ∧
    (∀ l : Fin (d.nExtrap + 1), l.val < d.nExtrap →
        d.Bmat (Fin.last d.nExtrap) l = -1 ∧
        d.Bmat l (Fin.last d.nExtrap) = -1) ∧
    d.Bmat (Fin.last d.nExtrap) (Fin.last d.nExtrap) = 0 ∧
    (∀ l : Fin (d.nExtrap + 1), d.rhs l = if l.val = d.nExtrap then -1 else 0) := by
  refine ⟨fun k j hk hj => ?_, fun l hl => ⟨?_, ?_⟩, ?_, fun l => rfl⟩
  · rw [d.Bmat_apply]
    have h1 : ¬ k.val = d.nExtrap := by omega
    have h2 : ¬ j.val = d.nExtrap := by omega
    simp [h1, h2, hk, DIIS.gram, DIIS.innerTerm]
  · rw [d.Bmat_apply]
    have h1 : ¬ l.val = d.nExtrap := by omega
    simp [Fin.val_last, h1]
  · rw [d.Bmat_apply]
    have h1 : ¬ l.val = d.nExtrap := by omega
    simp [Fin.val_last, h1]
  · rw [d.Bmat_apply]
    simp [Fin.val_last]

theorem claimC2_witness :
    dOrtho.Bmat 0 1 = ∑ i ∈ Finset.range 1,
        InnerProd 2 (dOrtho.em 0 i) 1 (dOrtho.em 1 i) 1 ∧
      dOrtho.Bmat (Fin.last 2) 0 = -1 :=
  ⟨(claimC2 dOrtho).1 0 1 (by decide) (by decide),
    ((claimC2 dOrtho).2.1 0 (by decide)).1⟩

/-- C4: after assembly the Gram sub-block is exactly symmetric, by plain
equality (no conjugation is applied by the mirror step, even for complex
scalars). -/
theorem claimC4 (d : DIIS K) (j k : Fin (d.nExtrap + 1))
    (hj : j.val < d.nExtrap) (hk : k.val < d.nExtrap) :
    d.Bmat j k = d.Bmat k j := by
  rw [d.Bmat_apply, d.Bmat_apply]
  have h1 : ¬ j.val = d.nExtrap := by omega
  have h2 : ¬ k.val = d.nExtrap := by omega
  rcases lt_trichotomy j.val k.val with h | h | h
  · simp [h1, h2, le_of_lt h, Nat.not_le.mpr h]
  · simp [h1, h2, h]
  · simp [h1, h2, le_of_lt h, Nat.not_le.mpr h]

theorem claimC4_witness : dOrtho.Bmat 0 1 = dOrtho.Bmat 1 0 :=
  claimC4 dOrtho 1 0 (by decide) (by decide)

/-- C7: the inner-product primitive evaluates to the accumulated sum of
`conj (x_k) * y_k` over the strided buffers (plain `x_k * y_k` in the real
case); consequently `InnerProd(x, x)` is non-negative for every real buffer
and `InnerProd(x, y)` is the conjugate of `InnerProd(y, x)` for complex
buffers. -/
theorem claimC7 :
    (∀ (n : Nat) (x y : Nat → ℂ) (incx incy : Nat),
        InnerProd n x incx y incy =
          ∑ k ∈ Finset.range n, star (x (k * incx)) * y (k * incy)) ∧
    (∀ (n : Nat) (x y : Nat → ℚ) (incx incy : Nat),
        InnerProd n x incx y incy =
          ∑ k ∈ Finset.range n, x (k * incx) * y (k * incy)) ∧
    (∀ (n : Nat) (x : Nat → ℚ) (incx : Nat),
        0 ≤ InnerProd n x incx x incx) ∧
    (∀ (n : Nat) (x y : Nat → ℂ) (incx incy : Nat),
        InnerProd n x incx y incy = star (InnerProd n y incy x incx)) := by
  refine ⟨fun n x y incx incy => innerProd_eq_sum n x incx y incy,
    fun n x y incx incy => ?_, fun n x incx => ?_,
    fun n x y incx incy => innerProd_star n x incx y incy⟩
  · rw [innerProd_eq_sum]
    exact Finset.sum_congr rfl fun k _ => by rw [star_trivial]
  · rw [innerProd_eq_sum]
    refine Finset.sum_nonneg fun k _ => ?_
    rw [star_trivial]
    exact mul_self_nonneg _

/-- C8: `extrapolate()` leaves the caller-supplied data unchanged: the
fields `nExtrap`, `nMat`, `OSize` and the whole error-metric history are the
same after the call; only `coeffs` is written. -/
theorem claimC8 (d : DIIS K) :
    (d.extrapolate).2.nExtrap = d.nExtrap ∧
      (d.extrapolate).2.nMat = d.nMat ∧
      (d.extrapolate).2.OSize = d.OSize ∧
      (d.extrapolate).2.errorMetric = d.errorMetric := by
  cases hLS : LinSolve d.Bmat d.rhs <;>
    simp [DIIS.extrapolate, hLS]

/-- C9: `extrapolate()` is deterministic: two engines in identical states
produce the same boolean and the same coefficients.  The embedded engine is
a pure function of its state (the C++ routine reads no global mutable
state), so equal inputs give equal outputs. -/
theorem claimC9 (d1 d2 : DIIS K) (h1 : d1.nExtrap = d2.nExtrap)
    (h2 : d1.nMat = d2.nMat) (h3 : d1.OSize = d2.OSize)
    (h4 : d1.coeffs = d2.coeffs) (h5 : d1.errorMetric = d2.errorMetric) :
    d1.extrapolate = d2.extrapolate := by
  cases d1
  cases d2
  simp_all

theorem claimC9_witness : dOne.extrapolate = dOne.extrapolate :=
  claimC9 dOne dOne rfl rfl rfl rfl rfl

/-- C3 (amended): over every scalar field, real or complex, a bordered
matrix that is exactly singular makes `extrapolate()` return `false`,
signalled only through the boolean (the embedded routine is a total
function).  Over real scalars (trivial conjugation), two identical history
slots make it singular, so `extrapolate()` returns `false` there.  Neither
the parallel-metric scenario `e0 = [1,0], e1 = [2,0]` nor, for complex
scalars, identical non-adjacent slots need make the bordered matrix
singular; both are refuted by the counterexample. -/
theorem claimC3 :
    (∀ (K : Type) [Field K] [StarRing K] [DecidableEq K] (d : DIIS K),
        detR (d.nExtrap + 1) d.Bmat = 0 → (d.extrapolate).1 = false) ∧
    (∀ (K : Type) [Field K] [StarRing K] [TrivialStar K] [DecidableEq K]
        (d : DIIS K) (a b : Nat), a < d.nExtrap → b < d.nExtrap → a ≠ b →
        d.errorMetric.getD a [] = d.errorMetric.getD b [] →
        (d.extrapolate).1 = false) := by
  constructor
  · intro K _ _ _ d h
    exact d.extrapolate_false_of_det h
  · intro K _ _ _ _ d a b ha hb hab hslot
    apply DIIS.extrapolate_false_of_det
    rw [detR_eq_det]
    refine Matrix.det_zero_of_row_eq
      (i := (⟨a, by omega⟩ : Fin (d.nExtrap + 1))) (j := ⟨b, by omega⟩)
      (fun h => hab (congrArg Fin.val h)) ?_
    funext c
    rw [d.Bmat_apply, d.Bmat_apply]
    have hA : ¬ a = d.nExtrap := by omega
    have hB : ¬ b = d.nExtrap := by omega
    by_cases hc : c.val = d.nExtrap
    · simp [hA, hB, hc]
    · simp only [hA, hB, hc, if_false]
      by_cases hac : a ≤ c.val <;> by_cases hbc : b ≤ c.val <;>
        simp only [hac, hbc, if_true, if_false]
      · exact d.gram_congr_left hslot c.val
      · exact (d.gram_congr_left hslot c.val).trans (d.gram_comm b c.val)
      · exact (d.gram_comm c.val a).trans (d.gram_congr_left hslot c.val)
      · exact d.gram_congr_right hslot c.val

theorem claimC3_witness :
    (dSame.extrapolate).1 = false ∧ (dSame.extrapolate).1 = false :=
  ⟨claimC3.1 ℚ dSame dSame_detR,
    claimC3.2 ℚ dSame 0 1 (by decide) (by decide) (by decide) rfl⟩

theorem claimC3_counterexample :
    ((dParallel.extrapolate).1 = true ∧
      detR (dParallel.nExtrap + 1) dParallel.Bmat = -1) ∧
    (((DIIS.make 3 1 1 [[eCOne], [eCI], [eCOne]] : DIIS ℂ).extrapolate).1 = true ∧
      (DIIS.make 3 1 1 [[eCOne], [eCI], [eCOne]] : DIIS ℂ).errorMetric.getD 0 [] =
        (DIIS.make 3 1 1 [[eCOne], [eCI], [eCOne]] : DIIS ℂ).errorMetric.getD 2 [] ∧
      detR ((DIIS.make 3 1 1 [[eCOne], [eCI], [eCOne]] : DIIS ℂ).nExtrap + 1)
        (DIIS.make 3 1 1 [[eCOne], [eCI], [eCOne]] : DIIS ℂ).Bmat = -4) :=
  ⟨⟨dParallel_true, dParallel_detR⟩, dCSame_true, rfl, dCSame_detR⟩

/-- C5: with `nExtrap = 1` and a single nonzero error metric the bordered
system is nonsingular (its determinant is `-1`), `extrapolate()` succeeds,
and the unique solution gives `coeffs[0] = 1`. -/
theorem claimC5 (OS : Nat) (e : Nat → K) (h : ∃ k, k < OS ∧ e k ≠ 0) :
    ((DIIS.make 1 1 OS [[e]] : DIIS K).extrapolate).1 = true ∧
      ((DIIS.make 1 1 OS [[e]] : DIIS K).extrapolate).2.coeffs.getD 0 0 = 1 := by
  have htrue : ((DIIS.make 1 1 OS [[e]] : DIIS K).extrapolate).1 = true := by
    apply DIIS.extrapolate_true_of_det
    rw [oneSlot_detR]
    exact neg_ne_zero.mpr one_ne_zero
  refine ⟨htrue, ?_⟩
  have hsum := (DIIS.make 1 1 OS [[e]] : DIIS K).sum_take_eq_one htrue
  rw [← take_one_sum_eq_getD]
  exact hsum

theorem claimC5_witness :
    ((DIIS.make 1 1 1 [[fun _ => (1 : ℚ)]] : DIIS ℚ).extrapolate).1 = true ∧
      ((DIIS.make 1 1 1 [[fun _ => (1 : ℚ)]] : DIIS ℚ).extrapolate).2.coeffs.getD 0 0 = 1 :=
  claimC5 1 (fun _ => (1 : ℚ)) ⟨0, Nat.zero_lt_one, one_ne_zero⟩

/-- C6: for the orthonormal two-slot history `e0 = [1,0]`, `e1 = [0,1]`
the Gram sub-block is the identity, `extrapolate()` succeeds and the
extrapolation weights are `[1/2, 1/2]`. -/
theorem claimC6 :
    (dOrtho.extrapolate).1 = true ∧
      dOrtho.Bmat 0 0 = 1 ∧ dOrtho.Bmat 0 1 = 0 ∧
      dOrtho.Bmat 1 0 = 0 ∧ dOrtho.Bmat 1 1 = 1 ∧
      (dOrtho.extrapolate).2.coeffs.take 2 = [1 / 2, 1 / 2] := by
  have e00 : (DIIS.make 2 1 2 [[eUnitX], [eUnitY]] : DIIS ℚ).Bmat
      (0 : Fin 3) (0 : Fin 3) = 1 := by
    rw [twoSlot_Bmat]
    simp [ipXX]
  have e01 : (DIIS.make 2 1 2 [[eUnitX], [eUnitY]] : DIIS ℚ).Bmat
      (0 : Fin 3) (1 : Fin 3) = 0 := by
    rw [twoSlot_Bmat]
    simp [ipXY]
  have e10 : (DIIS.make 2 1 2 [[eUnitX], [eUnitY]] : DIIS ℚ).Bmat
      (1 : Fin 3) (0 : Fin 3) = 0 := by
    rw [twoSlot_Bmat]
    simp [ipXY]
  have e11 : (DIIS.make 2 1 2 [[eUnitX], [eUnitY]] : DIIS ℚ).Bmat
      (1 : Fin 3) (1 : Fin 3) = 1 := by
    rw [twoSlot_Bmat]
    simp [ipYY]
  have hdet : detR (dOrtho.nExtrap + 1) dOrtho.Bmat ≠ 0 := by
    rw [dOrtho_detR]
    norm_num
  have hLS := LinSolve_eq_some dOrtho.Bmat dOrtho.rhs hdet
  have hcoeffs : (dOrtho.extrapolate).2.coeffs = List.ofFn (fun i : Fin 3 =>
      detR 3 ((DIIS.make 2 1 2 [[eUnitX], [eUnitY]] : DIIS ℚ).Bmat.updateColumn
          i (DIIS.make 2 1 2 [[eUnitX], [eUnitY]] : DIIS ℚ).rhs) /
        detR 3 (DIIS.make 2 1 2 [[eUnitX], [eUnitY]] : DIIS ℚ).Bmat) := by
    rw [DIIS.extrapolate, hLS]
    rfl
  refine ⟨dOrtho_true, e00, e01, e10, e11, ?_⟩
  rw [hcoeffs, ofFnThree]
  show [_, _] = _
  rw [dOrthoM_upd0_det3, dOrthoM_upd1_det3, dOrthoM_det3]
  norm_num

/-- The two trailing fixups establish both equivalence invariants, whatever
controls they are applied to. -/
theorem applyEquivalences_inv (sc : SCFControls) :
    ((applyEquivalences sc).dampStartParam = 0 →
      (applyEquivalences sc).doDamp = false) ∧
    ((applyEquivalences sc).doDamp = false ∧
        (applyEquivalences sc).diisAlg = DIISAlgorithm.NONE →
      (applyEquivalences sc).doExtrap = false) := by
  obtain ⟨t1, t2, t3, t4, t5, t6, t7, t8, t9, t10, t11, t12⟩ := sc
  unfold applyEquivalences
  dsimp only
  split_ifs <;> simp_all

/-- C10 (amended): whenever the input file contains an SCF section and
`CQSCFOptions` returns normally, the resulting controls satisfy both
equivalence invariants, regardless of what the file requested.  (Without an
SCF section the routine returns the incoming controls unchanged, so the
invariants then depend on the caller; see the counterexample.) -/
theorem claimC10 (stod : String → Option ℚ) (input : CQInputSCF)
    (sc0 : SCFControls) (pert0 : EMPerturbation) (sc1 : SCFControls)
    (pert1 : EMPerturbation) (hs : input.hasSCF = true)
    (h : CQSCFOptions stod input sc0 pert0 = some (sc1, pert1)) :
    (sc1.dampStartParam = 0 → sc1.doDamp = false) ∧
    (sc1.doDamp = false ∧ sc1.diisAlg = DIISAlgorithm.NONE →
      sc1.doExtrap = false) := by
  rw [CQSCFOptions] at h
  simp only [hs, Bool.true_eq_false, if_false] at h
  cases hh : handleField stod input.fieldTokens pert0 with
  | none =>
    rw [hh] at h
    exact absurd h (by simp)
  | some p =>
    rw [hh] at h
    rw [Option.some.injEq, Prod.mk.injEq] at h
    obtain ⟨h1, h2⟩ := h
    rw [← h1]
    exact applyEquivalences_inv _

theorem claimC10_witness :
    (scFixed.dampStartParam = 0 → scFixed.doDamp = false) ∧
    (scFixed.doDamp = false ∧ scFixed.diisAlg = DIISAlgorithm.NONE →
      scFixed.doExtrap = false) :=
  claimC10 (fun _ => none) inputSCFOnly scZeroDamp pertEmpty scFixed
    pertEmpty rfl rfl

theorem claimC10_counterexample :
    CQSCFOptions (fun _ => none) inputNoSCF scZeroDamp pertEmpty =
        some (scZeroDamp, pertEmpty) ∧
      scZeroDamp.dampStartParam = 0 ∧ scZeroDamp.doDamp = true :=
  ⟨rfl, rfl, rfl⟩

end Claims

end ChronusQ
